import Mathlib

/-!
Verification of the auto-backtesting core: the paginated, deduplicated
data-acquisition-and-cache pipeline (src/engine/data_loader.py,
src/engine/binance_client.py) and the multi-timeframe indicator alignment and
signal-decision engine (src/strategies/sma_cross.py,
src/strategies/mtf_rsi_trend.py).

Embedding conventions:
* Python floats are modelled as exact rationals; a pandas/numpy NaN is `none` in
  `Option ℚ`.
* Calendar-date arguments (strings of the form YYYY-MM-DD) are represented by
  the UTC-midnight epoch-millisecond instant that `_date_to_ms` (and equally
  `pd.Timestamp` with tz UTC) assigns them; timestamps are naturals.
* The network is a function from the startTime parameter of a klines request
  (the pagination cursor) to the response; symbol, interval, endTime and the
  limit of 1000 are fixed for the duration of one `fetch_and_save` call.  A
  transport error (requests exception or raise_for_status) is `Except.error ()`.
* The data/ cache directory is a finite map from the (uppercased symbol,
  interval) key of `_csv_path` to the file contents; reading a CSV back and
  re-localising its timestamps to UTC is the identity in this model.
* The while-loop of `fetch_and_save` is made total with an explicit fuel bound;
  a result of `none` means the bound was hit before the loop broke.
-/

namespace AutoBacktest

/-- One OHLCV candle as produced by `get_klines` (src/engine/binance_client.py):
`ts` is the UTC open time in epoch milliseconds (the DataFrame index), and the
five columns are Open, High, Low, Close, Volume. -/
structure Bar where
  ts : ℕ
  op : ℚ
  hi : ℚ
  lo : ℚ
  cl : ℚ
  vol : ℚ
  deriving DecidableEq, Repr

/-- The `index.duplicated` filter with keep set to first, from `fetch_and_save`
(src/engine/data_loader.py line 100): keep the first bar bearing each timestamp,
in list order.  `seen` is the set of timestamps already kept. -/
def dedupByTs (seen : List ℕ) : List Bar → List Bar
  | [] => []
  | b :: rest =>
    if b.ts ∈ seen then dedupByTs seen rest
    else b :: dedupByTs (b.ts :: seen) rest

/-- The `sort_index` call of `fetch_and_save` (line 101): sort ascending by
timestamp. -/
def sortByTs (l : List Bar) : List Bar :=
  l.mergeSort fun a b => a.ts ≤ b.ts

/-- Lines 97-101 of src/engine/data_loader.py: concatenate the fetched pages,
drop bars whose timestamp already occurred earlier in the concatenation, then
sort ascending by timestamp. -/
def mergePages (pages : List (List Bar)) : List Bar :=
  sortByTs (dedupByTs [] pages.flatten)

/-- The network as seen by one `fetch_and_save` call: the response of
`get_klines` as a function of the startTime parameter (the pagination cursor;
`none` means the parameter is absent). -/
def Net : Type := Option ℕ → Except Unit (List Bar)

/-- Contents of the data/ cache directory: one entry per cache-file key. -/
def Store : Type := String × String → Option (List Bar)

/-- The cache-file key of `_csv_path` (src/engine/data_loader.py lines 20-22):
uppercased symbol plus interval. -/
def csvKey (symbol interval : String) : String × String :=
  (symbol.toUpper, interval)

/-- The stop check of step 4 of the pagination loop (src/engine/data_loader.py
line 90): stop when an end was requested and the advanced cursor is past it. -/
def stopAtEnd (end_ms : Option ℕ) (cursor2 : ℕ) : Bool :=
  match end_ms with
  | some e => decide (e < cursor2)
  | none => false

/-- The while-loop of `fetch_and_save` (src/engine/data_loader.py lines 66-91),
returning the collected pages, or propagating the first transport error.  Each
iteration requests a page at the cursor; an empty page breaks the loop, a page
shorter than 1000 bars breaks it after being appended, otherwise the cursor
advances to one millisecond past the page's last bar and the loop breaks if the
new cursor exceeds the requested end.  `fuel` bounds the number of iterations;
`none` means the bound was hit before the loop broke. -/
def fetchPages (net : Net) (end_ms : Option ℕ) :
    ℕ → Option ℕ → Option (Except Unit (List (List Bar)))
  | 0, _ => none
  | fuel + 1, cursor =>
    match net cursor with
    | .error e => some (.error e)
    | .ok page =>
      if page.isEmpty then some (.ok [])
      else if page.length < 1000 then some (.ok [page])
      else
        let cursor2 := (page.getLast?.elim 0 Bar.ts) + 1
        if stopAtEnd end_ms cursor2 then
          some (.ok [page])
        else
          match fetchPages net end_ms fuel (some cursor2) with
          | none => none
          | some (.error e) => some (.error e)
          | some (.ok rest) => some (.ok (page :: rest))

/-- Lines 58-110 of src/engine/data_loader.py: run the pagination loop; if no
pages were collected, return an empty series and write nothing; otherwise merge
the pages, write the cache file for (symbol, interval) and return the merged
series.  A transport error propagates with no write having occurred. -/
def fetch_and_save (net : Net) (fuel : ℕ) (store : Store) (symbol interval : String)
    (start_ms end_ms : Option ℕ) : Option (Except Unit (List Bar) × Store) :=
  match fetchPages net end_ms fuel start_ms with
  | none => none
  | some (.error e) => some (.error e, store)
  | some (.ok pages) =>
    if pages.isEmpty then some (.ok [], store)
    else
      let all := mergePages pages
      some (.ok all, fun k => if k = csvKey symbol interval then some all else store k)

/-- The inclusive date filter applied by `load_data` (src/engine/data_loader.py
lines 150-153): keep bars at or after the start instant, then bars at or before
the end instant, each filter applied only when the bound was given. -/
def filterRange (start_ms end_ms : Option ℕ) (l : List Bar) : List Bar :=
  let l1 := match start_ms with
    | some s => l.filter fun b => s ≤ b.ts
    | none => l
  match end_ms with
  | some e => l1.filter fun b => b.ts ≤ e
  | none => l1

/-- Lines 113-165 of src/engine/data_loader.py: if the cache file for the key
exists, read it and apply the inclusive date filter; a non-empty filtered
result is returned as is (no network access, cache unchanged); an empty
filtered result, like an absent cache file, falls through to `fetch_and_save`
with the same four arguments. -/
def load_data (net : Net) (fuel : ℕ) (store : Store) (symbol interval : String)
    (start_ms end_ms : Option ℕ) : Option (Except Unit (List Bar) × Store) :=
  match store (csvKey symbol interval) with
  | some cached =>
    let df := filterRange start_ms end_ms cached
    if df.isEmpty then fetch_and_save net fuel store symbol interval start_ms end_ms
    else some (.ok df, store)
  | none => fetch_and_save net fuel store symbol interval start_ms end_ms

/-- Simple moving average (src/strategies/sma_cross.py lines 21-33, and the
rolling mean of src/strategies/mtf_rsi_trend.py lines 47-49): undefined before
index period-1, thereafter the mean of the trailing window of `period` values
ending at the current index. -/
def _sma (arr : List ℚ) (period : ℕ) : List (Option ℚ) :=
  (List.range arr.length).map fun i =>
    if period - 1 ≤ i then some ((((arr.drop (i + 1 - period)).take period).sum) / period)
    else none

/-- Bar-to-bar deltas with a leading undefined entry: `Series.diff`
(src/strategies/mtf_rsi_trend.py line 58). -/
def diffs : List ℚ → List (Option ℚ)
  | [] => []
  | x :: rest => none :: List.zipWith (fun b a => some (b - a)) rest (x :: rest)

/-- Non-negative gains: `delta.clip` with lower bound 0 (line 59); the undefined
leading delta stays undefined. -/
def gains (xs : List ℚ) : List (Option ℚ) :=
  (diffs xs).map (Option.map fun d => max d 0)

/-- Non-negative loss magnitudes: `(-delta).clip` with lower bound 0 (line 60). -/
def losses (xs : List ℚ) : List (Option ℚ) :=
  (diffs xs).map (Option.map fun d => max (-d) 0)

/-- One step of the exponentially weighted mean with adjust true and ignore_na
false, carrying (numerator, denominator, count of defined observations): a
defined observation decays the existing weights by w and enters with weight 1;
an undefined observation only decays the existing weights. -/
def ewmStep (w : ℚ) : ℚ × ℚ × ℕ → Option ℚ → ℚ × ℚ × ℕ
  | (num, den, cnt), some v => (num * w + v, den * w + 1, cnt + 1)
  | (num, den, cnt), none => (num * w, den * w, cnt)

/-- The ewm mean of one window: weights w to the power of the distance from the
current position, w = (span-1)/(span+1) (i.e. 1 - alpha with
alpha = 2/(span+1)); defined once at least `minp` observations are not NaN and
the total weight is positive (pandas yields NaN on a zero denominator). -/
def ewmW (span : ℕ) : ℚ := ((span : ℚ) - 1) / ((span : ℚ) + 1)

def ewmAt (span minp : ℕ) (window : List (Option ℚ)) : Option ℚ :=
  let acc := window.foldl (ewmStep (ewmW span)) (0, 0, 0)
  if minp ≤ acc.2.2 ∧ 0 < acc.2.1 then some (acc.1 / acc.2.1) else none

/-- `ewm(span, min_periods).mean()` of src/strategies/mtf_rsi_trend.py lines
61-62: the value at index t is the weighted mean of the first t+1
observations. -/
def ewmMean (span minp : ℕ) (xs : List (Option ℚ)) : List (Option ℚ) :=
  (List.range xs.length).map fun t => ewmAt span minp (xs.take (t + 1))

/-- The final combination 100 - 100/(1+rs) with rs = avg_gain/avg_loss (lines
63-64), with IEEE float division mapped onto exact rationals: a zero avg_loss
with a non-zero avg_gain makes rs infinite and the result exactly 100; a zero
avg_loss with a zero avg_gain makes rs NaN and the result undefined.  Both
averages are non-negative whenever defined, because gains and losses are
clipped at 0. -/
def rsiCombine : Option ℚ → Option ℚ → Option ℚ
  | some g, some l =>
    if l = 0 then (if g = 0 then none else some 100)
    else some (100 - 100 / (1 + g / l))
  | _, _ => none

/-- Relative Strength Index (src/strategies/mtf_rsi_trend.py lines 52-64). -/
def _rsi (xs : List ℚ) (period : ℕ) : List (Option ℚ) :=
  List.zipWith rsiCombine (ewmMean period period (gains xs))
    (ewmMean period period (losses xs))

/-- Helper of the bucket partition: fold the remaining (timestamp, close) bars
into the current bucket, emitting a bucket whenever the rule value changes; the
representative close of a bucket is the close of its last bar. -/
def bucketsGo (rule : ℕ → ℕ) : ℕ × ℚ → List (ℕ × ℚ) → List (ℕ × ℚ)
  | cur, [] => [cur]
  | cur, y :: ys =>
    if rule y.1 = cur.1 then bucketsGo rule (cur.1, y.2) ys
    else cur :: bucketsGo rule (rule y.1, y.2) ys

/-- Partition a (timestamp, close) series into coarser-resolution buckets: the
rule maps a timestamp to its bucket id (e.g. the calendar day or week it falls
in), and bars sharing a rule value are consecutive for monotone rules over
sorted input.  Each bucket contributes (bucket id, close of its last bar). -/
def buckets (rule : ℕ → ℕ) : List (ℕ × ℚ) → List (ℕ × ℚ)
  | [] => []
  | x :: xs => bucketsGo rule (rule x.1, x.2) xs

/-- Helper of `runIdx`: current bucket-sequence index and current bucket id. -/
def runIdxGo (rule : ℕ → ℕ) : ℕ → ℕ → List (ℕ × ℚ) → List ℕ
  | _, _, [] => []
  | k, cur, y :: ys =>
    if rule y.1 = cur then k :: runIdxGo rule k cur ys
    else (k + 1) :: runIdxGo rule (k + 1) (rule y.1) ys

/-- The index, within the bucket sequence, of each bar's bucket. -/
def runIdx (rule : ℕ → ℕ) : List (ℕ × ℚ) → List ℕ
  | [] => []
  | x :: xs => 0 :: runIdxGo rule 0 (rule x.1) xs

/-- Modelled from the spec: `backtesting.lib.resample_apply`, called by
`MtfRsiTrend.init` (src/strategies/mtf_rsi_trend.py lines 122-129), is not part
of this repository's sources, so the Multi-Timeframe Aligner is modelled from
specification section 4.3: partition the base series into buckets by the target
resolution rule, take each bucket's last close as its representative, compute
the indicator over the bucket-representative sequence, and re-project: every
base bar receives the indicator value of the most recently completed coarser
bucket before its own — the bucket preceding the bar's bucket in the bucket
sequence; bars of the first bucket have no completed predecessor and get an
undefined value. -/
def resampleApply (rule : ℕ → ℕ) (ind : List ℚ → List (Option ℚ))
    (bars : List (ℕ × ℚ)) : List (Option ℚ) :=
  let vals := ind ((buckets rule bars).map Prod.snd)
  (runIdx rule bars).map fun g => if g = 0 then none else (vals[g - 1]?).join

/-- The aligned higher-timeframe RSI of `MtfRsiTrend.init`: resample-and-apply
of `_rsi` onto the base (timestamp, close) series. -/
def alignedRsi (rule : ℕ → ℕ) (period : ℕ) (bars : List (ℕ × ℚ)) : List (Option ℚ) :=
  resampleApply rule (fun closes => _rsi closes period) bars

/-- A per-bar decision: one of no-op, enter-long (with its stop-loss price), or
exit. -/
inductive Action where
  | hold
  | enterLong (sl : ℚ)
  | exitPos
  deriving DecidableEq, Repr

/-- Strict comparison of two indicator values under IEEE NaN semantics: a
comparison involving an undefined value is false. -/
def cmpLt : Option ℚ → Option ℚ → Bool
  | some a, some b => decide (a < b)
  | _, _ => false

/-- Non-strict comparison of two indicator values under IEEE NaN semantics. -/
def cmpLe : Option ℚ → Option ℚ → Bool
  | some a, some b => decide (a ≤ b)
  | _, _ => false

/-- Comparison of an indicator value against a constant threshold under IEEE
NaN semantics: true when the value is defined and strictly above the
threshold. -/
def gtC : Option ℚ → ℚ → Bool
  | some v, c => decide (c < v)
  | none, _ => false

/-- Modelled from the spec: `backtesting.lib.crossover`, called by
`SmaCross.next` (src/strategies/sma_cross.py lines 72 and 79), is not part of
this repository's sources; per specification section 4.5 the first series
crosses over the second on this bar when it transitions from at-or-below on the
previous bar to strictly above on this bar.  Undefined values satisfy no
comparison. -/
def crossover (prev1 cur1 prev2 cur2 : Option ℚ) : Bool :=
  cmpLe prev1 prev2 && cmpLt cur2 cur1

/-- `SmaCross.next` (src/strategies/sma_cross.py lines 66-81): the position
flag is read from the external simulation engine, price is the current close,
and the two indicator pairs are the previous and current values of the fast and
slow SMA. -/
def smaCrossNext (fastPrev fastCur slowPrev slowCur : Option ℚ) (price : ℚ)
    (posOpen : Bool) (stop_loss_pct : ℚ) : Action :=
  if crossover fastPrev fastCur slowPrev slowCur then
    if !posOpen then .enterLong (price * (1 - stop_loss_pct)) else .hold
  else if crossover slowPrev slowCur fastPrev fastCur then
    if posOpen then .exitPos else .hold
  else .hold

/-- `MtfRsiTrend.next` (src/strategies/mtf_rsi_trend.py lines 131-151): with no
open position, enter long when the weekly RSI is above 50, the daily RSI is
above the entry threshold, the fast SMA is above the slow SMA and the price is
above the fast SMA; with an open position, exit when the daily RSI is above the
exit threshold or the price is below the slow SMA. -/
def mtfNext (rsiWeekly rsiDaily smaFast smaSlow : Option ℚ) (price : ℚ)
    (posOpen : Bool) (rsi_entry rsi_exit stop_loss_pct : ℚ) : Action :=
  if !posOpen then
    if gtC rsiWeekly 50 && gtC rsiDaily rsi_entry && cmpLt smaSlow smaFast
        && cmpLt smaFast (some price) then
      .enterLong (price * (1 - stop_loss_pct))
    else .hold
  else
    if gtC rsiDaily rsi_exit || cmpLt (some price) smaSlow then .exitPos
    else .hold

/-- Concrete data for witness instances: a single bar. -/
def b0 : Bar := ⟨0, 1, 1, 1, 1, 1⟩

/-- A concrete cache holding one bar under the empty-symbol key. -/
def stA : Store := fun k => if k = csvKey "" "" then some [b0] else none

/-- A concrete empty cache. -/
def stB : Store := fun _ => none

/-- A concrete network returning one bar for every request. -/
def netOk : Net := fun _ => .ok [b0]

/-- A concrete network failing every request with a transport error. -/
def netErr : Net := fun _ => .error ()

/-! Helper lemmas for the acquisition pipeline. -/

theorem fetchPages_pages_ne_nil (net : Net) (end_ms : Option ℕ) (fuel : ℕ)
    (cursor : Option ℕ) (pages : List (List Bar))
    (h : fetchPages net end_ms fuel cursor = some (.ok pages)) :
    ∀ p ∈ pages, p ≠ [] := by
  induction fuel generalizing cursor pages with
  | zero => simp [fetchPages] at h
  | succ fuel ih =>
    rw [fetchPages] at h
    cases hnet : net cursor with
    | error e => rw [hnet] at h; simp at h
    | ok page =>
      rw [hnet] at h
      dsimp only at h
      by_cases hemp : page.isEmpty
      · rw [if_pos hemp] at h
        obtain rfl : ([] : List (List Bar)) = pages := by simpa using h
        simp
      · rw [if_neg hemp] at h
        have hpne : page ≠ [] := fun he => hemp (by simp [he])
        by_cases hlen : page.length < 1000
        · rw [if_pos hlen] at h
          obtain rfl : [page] = pages := by simpa using h
          simpa using hpne
        · rw [if_neg hlen] at h
          by_cases hstop : stopAtEnd end_ms ((page.getLast?.elim 0 Bar.ts) + 1) = true
          · rw [if_pos hstop] at h
            obtain rfl : [page] = pages := by simpa using h
            simpa using hpne
          · rw [if_neg hstop] at h
            cases hrec : fetchPages net end_ms fuel (some ((page.getLast?.elim 0 Bar.ts) + 1)) with
            | none => rw [hrec] at h; simp at h
            | some r =>
              cases r with
              | error e => rw [hrec] at h; simp at h
              | ok rest =>
                rw [hrec] at h
                obtain rfl : page :: rest = pages := by simpa using h
                intro p hp
                rcases List.mem_cons.mp hp with rfl | hp2
                · exact hpne
                · exact ih _ _ hrec p hp2

theorem dedupByTs_cons_nil (b : Bar) (rest : List Bar) :
    dedupByTs [] (b :: rest) = b :: dedupByTs [b.ts] rest := by
  simp [dedupByTs]

theorem mergePages_ne_nil (pages : List (List Bar)) (hp : pages ≠ [])
    (hne : ∀ p ∈ pages, p ≠ []) : mergePages pages ≠ [] := by
  have hfl : pages.flatten ≠ [] := by
    cases pages with
    | nil => exact absurd rfl hp
    | cons p ps =>
      cases hq : p with
      | nil => exact absurd hq (hne p (by simp))
      | cons b bs => simp [hq]
  obtain ⟨b, rest, hbr⟩ := List.exists_cons_of_ne_nil hfl
  intro hcon
  have hlen := congrArg List.length hcon
  rw [mergePages, sortByTs, (List.mergeSort_perm _ _).length_eq, hbr,
    dedupByTs_cons_nil] at hlen
  simp at hlen

theorem dedup_disjoint (seen : List ℕ) (l : List Bar) :
    ((dedupByTs seen l).map Bar.ts).Nodup ∧ ∀ b ∈ dedupByTs seen l, b.ts ∉ seen := by
  induction l generalizing seen with
  | nil => simp [dedupByTs]
  | cons b rest ih =>
    by_cases h : b.ts ∈ seen
    · simpa [dedupByTs, h] using ih seen
    · have h2 := ih (b.ts :: seen)
      simp only [dedupByTs, h, if_false, List.map_cons, List.nodup_cons]
      refine ⟨⟨?_, h2.1⟩, ?_⟩
      · intro hmem
        obtain ⟨c, hc, hts⟩ := List.mem_map.mp hmem
        exact (h2.2 c hc) (hts ▸ List.mem_cons_self _ _)
      · intro c hc
        rcases List.mem_cons.mp hc with rfl | hc2
        · exact h
        · exact fun hseen => (h2.2 c hc2) (List.mem_cons_of_mem _ hseen)

theorem dedup_find (seen : List ℕ) (l : List Bar) (b : Bar) (hb : b ∈ dedupByTs seen l) :
    l.find? (fun x => x.ts == b.ts) = some b := by
  induction l generalizing seen with
  | nil => simp [dedupByTs] at hb
  | cons a rest ih =>
    by_cases h : a.ts ∈ seen
    · rw [dedupByTs, if_pos h] at hb
      have hne : a.ts ≠ b.ts := fun he => ((dedup_disjoint seen rest).2 b hb) (he ▸ h)
      rw [List.find?_cons_of_neg _ (by simp [hne]), ih seen hb]
    · rw [dedupByTs, if_neg h] at hb
      rcases List.mem_cons.mp hb with rfl | hb2
      · exact List.find?_cons_of_pos _ (by simp)
      · have hne : b.ts ≠ a.ts := fun he =>
          ((dedup_disjoint (a.ts :: seen) rest).2 b hb2) (he ▸ List.mem_cons_self _ _)
        rw [List.find?_cons_of_neg _ (by simp [Ne.symm hne]), ih _ hb2]

theorem sortByTs_perm (l : List Bar) : (sortByTs l).Perm l :=
  List.mergeSort_perm l _

theorem sortByTs_sorted (l : List Bar) :
    (sortByTs l).Pairwise fun a b => a.ts ≤ b.ts := by
  have h := @List.sorted_mergeSort Bar (fun a b : Bar => decide (a.ts ≤ b.ts))
    (fun a b c hab hbc => by
      simp only [decide_eq_true_eq] at *
      exact le_trans hab hbc)
    (fun a b => by
      simp only [Bool.or_eq_true, decide_eq_true_eq]
      exact Nat.le_total a.ts b.ts)
    l
  refine h.imp ?_
  intro a b hab
  simpa using hab

theorem mergePages_strict (pages : List (List Bar)) :
    (mergePages pages).Pairwise fun a b => a.ts < b.ts := by
  have hnd : ((mergePages pages).map Bar.ts).Nodup := by
    have hperm : ((mergePages pages).map Bar.ts).Perm
        ((dedupByTs [] pages.flatten).map Bar.ts) :=
      (sortByTs_perm _).map _
    exact hperm.nodup_iff.mpr (dedup_disjoint [] pages.flatten).1
  have hne : (mergePages pages).Pairwise fun a b => a.ts ≠ b.ts :=
    List.pairwise_map.mp hnd
  have hle : (mergePages pages).Pairwise fun a b => a.ts ≤ b.ts :=
    sortByTs_sorted _
  exact (hle.and hne).imp fun h => lt_of_le_of_ne h.1 h.2

theorem mergePages_keepFirst (pages : List (List Bar)) (b : Bar)
    (hb : b ∈ mergePages pages) :
    pages.flatten.find? (fun x => x.ts == b.ts) = some b :=
  dedup_find [] _ b ((sortByTs_perm _).mem_iff.mp hb)


theorem load_data_hit (net : Net) (fuel : ℕ) (store : Store) (symbol interval : String)
    (start_ms end_ms : Option ℕ) (cached : List Bar)
    (hc : store (csvKey symbol interval) = some cached)
    (hne : filterRange start_ms end_ms cached ≠ []) :
    load_data net fuel store symbol interval start_ms end_ms =
      some (.ok (filterRange start_ms end_ms cached), store) := by
  rw [load_data, hc]
  dsimp only
  rw [if_neg (by simpa using hne)]

theorem load_data_miss_absent (net : Net) (fuel : ℕ) (store : Store)
    (symbol interval : String) (start_ms end_ms : Option ℕ)
    (hc : store (csvKey symbol interval) = none) :
    load_data net fuel store symbol interval start_ms end_ms =
      fetch_and_save net fuel store symbol interval start_ms end_ms := by
  rw [load_data, hc]

theorem load_data_miss_empty (net : Net) (fuel : ℕ) (store : Store)
    (symbol interval : String) (start_ms end_ms : Option ℕ) (cached : List Bar)
    (hc : store (csvKey symbol interval) = some cached)
    (hemp : filterRange start_ms end_ms cached = []) :
    load_data net fuel store symbol interval start_ms end_ms =
      fetch_and_save net fuel store symbol interval start_ms end_ms := by
  rw [load_data, hc]
  dsimp only
  rw [if_pos (by simpa using hemp)]

theorem fetch_link (net : Net) (fuel : ℕ) (store : Store) (symbol interval : String)
    (start_ms end_ms : Option ℕ) (pages : List (List Bar))
    (hloop : fetchPages net end_ms fuel start_ms = some (.ok pages)) (hp : pages ≠ []) :
    fetch_and_save net fuel store symbol interval start_ms end_ms =
      some (.ok (mergePages pages),
        fun k => if k = csvKey symbol interval then some (mergePages pages) else store k) := by
  rw [fetch_and_save, hloop]
  dsimp only
  rw [if_neg (by simpa using hp)]

theorem fetch_and_save_spec (net : Net) (fuel : ℕ) (store : Store)
    (symbol interval : String) (start_ms end_ms : Option ℕ)
    (res : Except Unit (List Bar)) (st : Store)
    (h : fetch_and_save net fuel store symbol interval start_ms end_ms = some (res, st)) :
    (fetchPages net end_ms fuel start_ms = some (.error ()) ∧ res = .error () ∧ st = store)
    ∨ (fetchPages net end_ms fuel start_ms = some (.ok []) ∧ res = .ok [] ∧ st = store)
    ∨ (∃ pages, pages ≠ [] ∧ fetchPages net end_ms fuel start_ms = some (.ok pages)
        ∧ res = .ok (mergePages pages)
        ∧ st = fun k =>
            if k = csvKey symbol interval then some (mergePages pages) else store k) := by
  rw [fetch_and_save] at h
  cases hloop : fetchPages net end_ms fuel start_ms with
  | none => rw [hloop] at h; simp at h
  | some r =>
    rw [hloop] at h
    cases r with
    | error e =>
      dsimp only at h
      simp only [Option.some.injEq, Prod.mk.injEq] at h
      cases e
      exact Or.inl ⟨rfl, h.1.symm, h.2.symm⟩
    | ok pages =>
      dsimp only at h
      by_cases hemp : pages.isEmpty
      · rw [if_pos hemp] at h
        simp only [Option.some.injEq, Prod.mk.injEq] at h
        rw [List.isEmpty_iff] at hemp
        exact Or.inr (Or.inl ⟨hemp ▸ rfl, h.1.symm, h.2.symm⟩)
      · rw [if_neg hemp] at h
        simp only [Option.some.injEq, Prod.mk.injEq] at h
        refine Or.inr (Or.inr ⟨pages, fun he => hemp (by simp [he]), rfl, h.1.symm, h.2.symm⟩)

theorem mergePages_singleton (b : Bar) : mergePages [[b]] = [b] := by
  simp [mergePages, sortByTs, dedupByTs, List.mergeSort_singleton]

theorem stA_key : stA (csvKey "" "") = some [b0] := if_pos rfl

/-- Claim C2: for every sequence of non-empty pages produced by the pagination
loop, the series returned by fetch_and_save has strictly increasing timestamps
with no duplicates, for each timestamp occurring in more than one page the bar
kept is the first occurrence in page order, and whenever the loop yields such a
page list the fetched result is exactly their merge. -/
theorem claim_c2 (pages : List (List Bar)) (_hpages : ∀ p ∈ pages, p ≠ []) :
    ((mergePages pages).Pairwise fun a b => a.ts < b.ts)
    ∧ (∀ b ∈ mergePages pages,
        pages.flatten.find? (fun x => x.ts == b.ts) = some b)
    ∧ (∀ (net : Net) (fuel : ℕ) (store : Store) (symbol interval : String)
        (start_ms end_ms : Option ℕ),
        fetchPages net end_ms fuel start_ms = some (.ok pages) → pages ≠ [] →
        fetch_and_save net fuel store symbol interval start_ms end_ms =
          some (.ok (mergePages pages),
            fun k => if k = csvKey symbol interval then some (mergePages pages) else store k)) :=
  ⟨mergePages_strict pages, mergePages_keepFirst pages,
    fun net fuel store symbol interval a b hloop hp =>
      fetch_link net fuel store symbol interval a b pages hloop hp⟩

theorem claim_c2_witness :
    (mergePages [[b0]]).Pairwise (fun a b => a.ts < b.ts) :=
  (claim_c2 [[b0]] (by simp)).1

/-- Claim C3: when the cache file exists and the inclusively date-filtered
cached series is non-empty, load_data returns that filtered series with no
network access (the result does not depend on the network or the fuel, and the
store is unchanged); when the cache file is absent, or present but empty after
filtering, load_data returns exactly the result of fetch_and_save for the same
four arguments. -/
theorem claim_c3 (net : Net) (fuel : ℕ) (store : Store) (symbol interval : String)
    (start_ms end_ms : Option ℕ) :
    (∀ cached, store (csvKey symbol interval) = some cached →
      filterRange start_ms end_ms cached ≠ [] →
      ∀ net2 fuel2, load_data net2 fuel2 store symbol interval start_ms end_ms =
        some (.ok (filterRange start_ms end_ms cached), store))
    ∧ (store (csvKey symbol interval) = none →
      load_data net fuel store symbol interval start_ms end_ms =
        fetch_and_save net fuel store symbol interval start_ms end_ms)
    ∧ (∀ cached, store (csvKey symbol interval) = some cached →
      filterRange start_ms end_ms cached = [] →
      load_data net fuel store symbol interval start_ms end_ms =
        fetch_and_save net fuel store symbol interval start_ms end_ms) :=
  ⟨fun cached hc hne net2 fuel2 =>
      load_data_hit net2 fuel2 store symbol interval start_ms end_ms cached hc hne,
    fun hc => load_data_miss_absent net fuel store symbol interval start_ms end_ms hc,
    fun cached hc hemp =>
      load_data_miss_empty net fuel store symbol interval start_ms end_ms cached hc hemp⟩

theorem claim_c3_witness :
    load_data netOk 1 stA "" "" none none = some (.ok [b0], stA) :=
  (claim_c3 netOk 1 stA "" "" none none).1 [b0] stA_key (by simp [filterRange]) netOk 1

/-- Claim C8: calling load_data twice with identical arguments when the cache
file exists and the date-filtered cached series is non-empty returns identical
bar sequences on both calls, and neither call performs a network request (the
result is the same for every network and fuel, and the store is unchanged so
the second call sees the same cache). -/
theorem claim_c8 (store : Store) (symbol interval : String) (start_ms end_ms : Option ℕ)
    (cached : List Bar) (hc : store (csvKey symbol interval) = some cached)
    (hne : filterRange start_ms end_ms cached ≠ []) :
    ∀ net fuel net2 fuel2,
      load_data net fuel store symbol interval start_ms end_ms =
        some (.ok (filterRange start_ms end_ms cached), store)
      ∧ load_data net2 fuel2 store symbol interval start_ms end_ms =
        load_data net fuel store symbol interval start_ms end_ms :=
  fun net fuel net2 fuel2 =>
    ⟨load_data_hit net fuel store symbol interval start_ms end_ms cached hc hne,
      (load_data_hit net2 fuel2 store symbol interval start_ms end_ms cached hc hne).trans
        (load_data_hit net fuel store symbol interval start_ms end_ms cached hc hne).symm⟩

theorem claim_c8_witness :
    load_data netOk 1 stA "" "" none none = some (.ok (filterRange none none [b0]), stA)
    ∧ load_data netErr 2 stA "" "" none none = load_data netOk 1 stA "" "" none none :=
  claim_c8 stA "" "" none none [b0] stA_key (by simp [filterRange]) netOk 1 netErr 2

/-- Claim C9: fetch_and_save writes the cache only after the loop completed in
full: a loop that fetched zero bars yields an empty series with the store
untouched, a propagated transport error leaves the store untouched, and a
non-empty result replaces the cache entry wholesale — there is never a
partially written cache entry. -/
theorem claim_c9 (net : Net) (fuel : ℕ) (store : Store) (symbol interval : String)
    (start_ms end_ms : Option ℕ) (res : Except Unit (List Bar)) (st : Store)
    (h : fetch_and_save net fuel store symbol interval start_ms end_ms = some (res, st)) :
    (fetchPages net end_ms fuel start_ms = some (.ok []) → res = .ok [] ∧ st = store)
    ∧ (res = .error () → st = store)
    ∧ (∀ bars, res = .ok bars → bars = [] → st = store)
    ∧ (∀ bars, res = .ok bars → bars ≠ [] →
        st = fun k => if k = csvKey symbol interval then some bars else store k) := by
  rcases fetch_and_save_spec net fuel store symbol interval start_ms end_ms res st h with
    ⟨hloop, hres, hst⟩ | ⟨hloop, hres, hst⟩ | ⟨pages, hpne, hloop, hres, hst⟩
  · refine ⟨fun hl => ?_, fun _ => hst, fun bars hb => ?_, fun bars hb => ?_⟩
    · rw [hloop] at hl; simp at hl
    · rw [hres] at hb; simp at hb
    · rw [hres] at hb; simp at hb
  · refine ⟨fun _ => ⟨hres, hst⟩, fun he => ?_, fun _ _ _ => hst, fun bars hb hne => ?_⟩
    · rw [hres] at he; simp at he
    · rw [hres] at hb
      simp only [Except.ok.injEq] at hb
      exact absurd hb.symm hne
  · have hne := mergePages_ne_nil pages hpne
      (fetchPages_pages_ne_nil net end_ms fuel start_ms pages hloop)
    refine ⟨fun hl => ?_, fun he => ?_, fun bars hb hbe => ?_, fun bars hb hbne => ?_⟩
    · rw [hloop] at hl
      simp only [Option.some.injEq, Except.ok.injEq] at hl
      exact absurd hl hpne
    · rw [hres] at he; simp at he
    · rw [hres] at hb
      simp only [Except.ok.injEq] at hb
      exact absurd (hb ▸ hbe) hne
    · rw [hres] at hb
      simp only [Except.ok.injEq] at hb
      rw [hst, hb]

theorem claim_c9_witness : stB = stB :=
  (claim_c9 netErr 1 stB "" "" none none (.error ()) stB rfl).2.1 rfl

/-- Claim C10: whenever fetch_and_save fetches at least one bar it overwrites
the cache entry for (uppercased symbol, interval) with exactly the newly
fetched range and modifies no other cache entry; consequently a load_data call
whose cache-present-but-empty-after-filtering fallback re-fetches a narrow
range replaces the previously cached history for that key with only the bars
of the narrow range. -/
theorem claim_c10 (net : Net) (fuel : ℕ) (store : Store) (symbol interval : String)
    (start_ms end_ms : Option ℕ) (bars : List Bar) (st : Store)
    (h : fetch_and_save net fuel store symbol interval start_ms end_ms = some (.ok bars, st))
    (hbars : bars ≠ []) :
    st (csvKey symbol interval) = some bars
    ∧ (∀ k, k ≠ csvKey symbol interval → st k = store k)
    ∧ (∀ cached, store (csvKey symbol interval) = some cached →
        filterRange start_ms end_ms cached = [] →
        load_data net fuel store symbol interval start_ms end_ms = some (.ok bars, st)) := by
  have hst : st = fun k => if k = csvKey symbol interval then some bars else store k := by
    rcases fetch_and_save_spec net fuel store symbol interval start_ms end_ms (.ok bars) st h
      with ⟨_, hres, _⟩ | ⟨_, hres, hs⟩ | ⟨pages, hpne, _, hres, hs⟩
    · simp at hres
    · simp only [Except.ok.injEq] at hres
      exact absurd hres hbars
    · simp only [Except.ok.injEq] at hres
      rw [hs, hres]
  refine ⟨?_, ?_, ?_⟩
  · rw [hst]; simp
  · intro k hk
    rw [hst]
    simp [hk]
  · intro cached hc hemp
    rw [load_data_miss_empty net fuel store symbol interval start_ms end_ms cached hc hemp, h]

theorem claim_c10_witness :
    (fun k => if k = csvKey "" "" then some (mergePages [[b0]]) else stA k) (csvKey "" "")
      = some (mergePages [[b0]]) :=
  (claim_c10 netOk 1 stA "" "" none none (mergePages [[b0]])
    (fun k => if k = csvKey "" "" then some (mergePages [[b0]]) else stA k) rfl
    (by rw [mergePages_singleton]; exact List.cons_ne_nil _ _)).1


/-! Indicator lemmas and claims. -/

theorem list_sum_eq_sum_getD (l : List ℚ) :
    l.sum = ∑ j ∈ Finset.range l.length, l.getD j 0 := by
  induction l with
  | nil => simp
  | cons x l ih =>
    rw [List.sum_cons, ih, List.length_cons, Finset.sum_range_succ']
    simp [List.getD_cons_succ, List.getD_cons_zero, add_comm]

theorem slice_sum (arr : List ℚ) (a p : ℕ) (h : a + p ≤ arr.length) :
    ((arr.drop a).take p).sum = ∑ j ∈ Finset.range p, arr.getD (a + j) 0 := by
  rw [list_sum_eq_sum_getD]
  have hlen : ((arr.drop a).take p).length = p := by
    rw [List.length_take, List.length_drop]
    omega
  rw [hlen]
  refine Finset.sum_congr rfl fun j hj => ?_
  rw [Finset.mem_range] at hj
  rw [List.getD_eq_getElem?_getD, List.getD_eq_getElem?_getD, List.getElem?_take,
    if_pos hj, List.getElem?_drop]

theorem sma_getElem (arr : List ℚ) (p i : ℕ) (hi : i < arr.length) :
    (_sma arr p)[i]? = some (if p - 1 ≤ i then
      some ((((arr.drop (i + 1 - p)).take p).sum) / p) else none) := by
  rw [_sma, List.getElem?_map, List.getElem?_range hi]
  rfl

/-- Claim C4: the simple moving average with period p over a series of length n
is undefined at every index i < p-1, and at every index p-1 <= i < n equals the
exact arithmetic mean of the trailing p elements at positions i-p+1 through i;
in particular on [1,2,3,4,5] with p=3 it yields
[undefined, undefined, 2, 3, 4]. -/
theorem claim_c4 (arr : List ℚ) (p : ℕ) (hp : 1 ≤ p) :
    (∀ i, i < p - 1 → i < arr.length → (_sma arr p)[i]? = some none)
    ∧ (∀ i, p - 1 ≤ i → i < arr.length →
        ∃ m, (_sma arr p)[i]? = some (some m)
          ∧ (p : ℚ) * m = ∑ j ∈ Finset.range p, arr.getD (i + 1 - p + j) 0)
    ∧ _sma [1, 2, 3, 4, 5] 3 = [none, none, some 2, some 3, some 4] := by
  refine ⟨?_, ?_, ?_⟩
  · intro i hip hin
    rw [sma_getElem arr p i hin, if_neg (by omega)]
  · intro i hip hin
    rw [sma_getElem arr p i hin, if_pos hip]
    have hp0 : (p : ℚ) ≠ 0 := by
      have : (0 : ℚ) < p := by exact_mod_cast hp
      exact this.ne'
    refine ⟨_, rfl, ?_⟩
    rw [mul_comm, div_mul_cancel₀ _ hp0, slice_sum arr (i + 1 - p) p (by omega)]
  · simp [_sma, List.range_succ]
    norm_num

theorem claim_c4_witness :
    _sma [1, 2, 3, 4, 5] 3 = [none, none, some 2, some 3, some 4] :=
  (claim_c4 [1, 2, 3, 4, 5] 3 (by norm_num)).2.2


theorem diffs_cons (x : ℚ) (rest : List ℚ) :
    diffs (x :: rest) =
      none :: (List.zipWith (fun b a => b - a) rest (x :: rest)).map some := by
  rw [diffs, List.map_zipWith]

theorem diffs_length (xs : List ℚ) : (diffs xs).length = xs.length := by
  cases xs with
  | nil => rfl
  | cons x rest => simp [diffs_cons]

theorem gains_length (xs : List ℚ) : (gains xs).length = xs.length := by
  simp [gains, diffs_length]

theorem losses_length (xs : List ℚ) : (losses xs).length = xs.length := by
  simp [losses, diffs_length]

theorem gains_defined_nonneg (xs : List ℚ) (v : ℚ) (hv : some v ∈ gains xs) :
    0 ≤ v := by
  obtain ⟨o, _ho, hmap⟩ := List.mem_map.mp hv
  cases o with
  | none => simp at hmap
  | some d =>
    simp only [Option.map_some'] at hmap
    obtain rfl : max d 0 = v := by simpa using hmap
    exact le_max_right d 0

theorem losses_defined_nonneg (xs : List ℚ) (v : ℚ) (hv : some v ∈ losses xs) :
    0 ≤ v := by
  obtain ⟨o, _ho, hmap⟩ := List.mem_map.mp hv
  cases o with
  | none => simp at hmap
  | some d =>
    simp only [Option.map_some'] at hmap
    obtain rfl : max (-d) 0 = v := by simpa using hmap
    exact le_max_right (-d) 0

theorem diffs_mem_pos : ∀ (xs : List ℚ), List.Chain' (· < ·) xs →
    ∀ d, some d ∈ diffs xs → 0 < d
  | [], _, d, hd => by simp [diffs] at hd
  | [x], _, d, hd => by simp [diffs] at hd
  | x :: y :: t, h, d, hd => by
    rw [List.chain'_cons] at h
    rw [diffs_cons] at hd
    rcases List.mem_cons.mp hd with hno | hd2
    · simp at hno
    · have he : d ∈ List.zipWith (fun b a : ℚ => b - a) (y :: t) (x :: y :: t) :=
        (List.mem_map_of_injective (Option.some_injective ℚ)).mp hd2
      rw [show List.zipWith (fun b a : ℚ => b - a) (y :: t) (x :: y :: t)
          = (y - x) :: List.zipWith (fun b a => b - a) t (y :: t) from rfl] at he
      rcases List.mem_cons.mp he with rfl | h2
      · exact sub_pos.mpr h.1
      · exact diffs_mem_pos (y :: t) h.2 d
          (by rw [diffs_cons]; exact List.mem_cons_of_mem _ (List.mem_map_of_mem some h2))

theorem ewm_foldl_cnt (w : ℚ) (l : List (Option ℚ)) (num den : ℚ) (cnt : ℕ) :
    (l.foldl (ewmStep w) (num, den, cnt)).2.2 = cnt + l.countP (fun o => o.isSome) := by
  induction l generalizing num den cnt with
  | nil => simp
  | cons o l ih =>
    cases o with
    | none =>
      rw [List.foldl_cons]
      show (l.foldl (ewmStep w) (num * w, den * w, cnt)).2.2 = _
      rw [ih]
      simp [List.countP_cons]
    | some v =>
      rw [List.foldl_cons]
      show (l.foldl (ewmStep w) (num * w + v, den * w + 1, cnt + 1)).2.2 = _
      rw [ih]
      simp [List.countP_cons]
      omega

theorem ewm_foldl_nonneg (w : ℚ) (hw : 0 ≤ w) (l : List (Option ℚ))
    (hl : ∀ v, some v ∈ l → 0 ≤ v) (acc : ℚ × ℚ × ℕ)
    (h1 : 0 ≤ acc.1) (h2 : 0 ≤ acc.2.1) :
    0 ≤ (l.foldl (ewmStep w) acc).1 ∧ 0 ≤ (l.foldl (ewmStep w) acc).2.1 := by
  induction l generalizing acc with
  | nil => exact ⟨h1, h2⟩
  | cons o l ih =>
    rw [List.foldl_cons]
    cases o with
    | none =>
      exact ih (fun v hv => hl v (List.mem_cons_of_mem _ hv)) _
        (by simpa [ewmStep] using mul_nonneg h1 hw)
        (by simpa [ewmStep] using mul_nonneg h2 hw)
    | some v =>
      have hv : 0 ≤ v := hl v (List.mem_cons_self _ _)
      exact ih (fun u hu => hl u (List.mem_cons_of_mem _ hu)) _
        (by simpa [ewmStep] using add_nonneg (mul_nonneg h1 hw) hv)
        (by simpa [ewmStep] using add_nonneg (mul_nonneg h2 hw) zero_le_one)

theorem ewm_foldl_num_zero (w : ℚ) (l : List (Option ℚ))
    (hl : ∀ v, some v ∈ l → v = 0) (den : ℚ) (cnt : ℕ) :
    (l.foldl (ewmStep w) (0, den, cnt)).1 = 0 := by
  induction l generalizing den cnt with
  | nil => rfl
  | cons o l ih =>
    cases o with
    | none =>
      rw [List.foldl_cons]
      simpa [ewmStep] using ih (fun v hv => hl v (List.mem_cons_of_mem _ hv)) _ _
    | some v =>
      have hv : v = 0 := hl v (List.mem_cons_self _ _)
      rw [List.foldl_cons]
      simpa [ewmStep, hv] using ih (fun u hu => hl u (List.mem_cons_of_mem _ hu)) _ _

theorem ewmMean_getElem (span minp : ℕ) (xs : List (Option ℚ)) (t : ℕ)
    (ht : t < xs.length) :
    (ewmMean span minp xs)[t]? = some (ewmAt span minp (xs.take (t + 1))) := by
  rw [ewmMean, List.getElem?_map, List.getElem?_range ht]
  rfl

theorem rsi_getElem (xs : List ℚ) (p t : ℕ) (ht : t < xs.length) :
    (_rsi xs p)[t]? = some (rsiCombine (ewmAt p p ((gains xs).take (t + 1)))
      (ewmAt p p ((losses xs).take (t + 1)))) := by
  rw [_rsi, List.getElem?_zipWith,
    ewmMean_getElem p p (gains xs) t (by rw [gains_length]; exact ht),
    ewmMean_getElem p p (losses xs) t (by rw [losses_length]; exact ht)]

theorem gains_take_countP (xs : List ℚ) (t : ℕ) (ht : t < xs.length) :
    ((gains xs).take (t + 1)).countP (fun o => o.isSome) = t := by
  cases xs with
  | nil => simp at ht
  | cons x rest =>
    rw [gains, diffs_cons, List.map_cons,
      show (Option.map (fun d => max d 0) (none : Option ℚ)) = none from rfl,
      List.take_succ_cons, List.countP_cons]
    have h1 : ∀ o ∈ (((List.zipWith (fun b a : ℚ => b - a) rest (x :: rest)).map some).map
        (Option.map fun d => max d 0)).take t, (fun o : Option ℚ => o.isSome) o = true := by
      intro o ho
      have ho2 := List.take_subset t _ ho
      rw [List.map_map] at ho2
      obtain ⟨e, _, rfl⟩ := List.mem_map.mp ho2
      rfl
    rw [List.countP_eq_length.mpr h1]
    simp only [Option.isSome_none, Bool.false_eq_true, if_false, Nat.add_zero]
    rw [List.length_take, List.length_map, List.length_map, List.length_zipWith]
    simp at ht
    simp
    omega

theorem losses_take_countP (xs : List ℚ) (t : ℕ) (ht : t < xs.length) :
    ((losses xs).take (t + 1)).countP (fun o => o.isSome) = t := by
  cases xs with
  | nil => simp at ht
  | cons x rest =>
    rw [losses, diffs_cons, List.map_cons,
      show (Option.map (fun d => max (-d) 0) (none : Option ℚ)) = none from rfl,
      List.take_succ_cons, List.countP_cons]
    have h1 : ∀ o ∈ (((List.zipWith (fun b a : ℚ => b - a) rest (x :: rest)).map some).map
        (Option.map fun d => max (-d) 0)).take t, (fun o : Option ℚ => o.isSome) o = true := by
      intro o ho
      have ho2 := List.take_subset t _ ho
      rw [List.map_map] at ho2
      obtain ⟨e, _, rfl⟩ := List.mem_map.mp ho2
      rfl
    rw [List.countP_eq_length.mpr h1]
    simp only [Option.isSome_none, Bool.false_eq_true, if_false, Nat.add_zero]
    rw [List.length_take, List.length_map, List.length_map, List.length_zipWith]
    simp at ht
    simp
    omega

theorem gains_take_countP_le (xs : List ℚ) (t : ℕ) :
    ((gains xs).take (t + 1)).countP (fun o => o.isSome) ≤ t := by
  cases xs with
  | nil => simp [gains, diffs]
  | cons x rest =>
    rw [gains, diffs_cons, List.map_cons,
      show (Option.map (fun d => max d 0) (none : Option ℚ)) = none from rfl,
      List.take_succ_cons, List.countP_cons]
    simp only [Option.isSome_none, Bool.false_eq_true, if_false, Nat.add_zero]
    exact le_trans (List.countP_le_length _) (by simp)

theorem diffs_getElem (xs : List ℚ) (t : ℕ) (h1 : 1 ≤ t) (h2 : t < xs.length) :
    (diffs xs)[t]? = some (some (xs.getD t 0 - xs.getD (t - 1) 0)) := by
  cases xs with
  | nil => simp at h2
  | cons x rest =>
    obtain ⟨u, rfl⟩ : ∃ u, t = u + 1 := ⟨t - 1, by omega⟩
    have hu : u < rest.length := by simp at h2; omega
    have hu2 : u < (x :: rest).length := by simp; omega
    rw [diffs, List.getElem?_cons_succ, List.getElem?_zipWith,
      List.getElem?_eq_getElem hu, List.getElem?_eq_getElem hu2]
    dsimp only
    rw [Nat.add_sub_cancel, List.getD_cons_succ, List.getD_eq_getElem rest 0 hu,
      List.getD_eq_getElem _ 0 hu2]

theorem gains_getElem (xs : List ℚ) (t : ℕ) (h1 : 1 ≤ t) (h2 : t < xs.length) :
    (gains xs)[t]? = some (some (max (xs.getD t 0 - xs.getD (t - 1) 0) 0)) := by
  rw [gains, List.getElem?_map, diffs_getElem xs t h1 h2]
  rfl

theorem losses_getElem (xs : List ℚ) (t : ℕ) (h1 : 1 ≤ t) (h2 : t < xs.length) :
    (losses xs)[t]? = some (some (max (-(xs.getD t 0 - xs.getD (t - 1) 0)) 0)) := by
  rw [losses, List.getElem?_map, diffs_getElem xs t h1 h2]
  rfl

theorem ewmW_nonneg (p : ℕ) (hp : 1 ≤ p) : 0 ≤ ewmW p := by
  have h1 : (1:ℚ) ≤ (p : ℚ) := by exact_mod_cast hp
  have h2 : (0:ℚ) < (p : ℚ) + 1 := by linarith
  exact div_nonneg (by linarith) h2.le

theorem ewmAt_eq_of_foldl (span minp : ℕ) (window : List (Option ℚ))
    (num den : ℚ) (cnt : ℕ)
    (h : window.foldl (ewmStep (ewmW span)) (0, 0, 0) = (num, den, cnt)) :
    ewmAt span minp window = if minp ≤ cnt ∧ 0 < den then some (num / den) else none := by
  simp only [ewmAt, h]

theorem losses_defined_zero (xs : List ℚ) (hchain : List.Chain' (· < ·) xs)
    (v : ℚ) (hv : some v ∈ losses xs) : v = 0 := by
  obtain ⟨o, ho, hmap⟩ := List.mem_map.mp hv
  cases o with
  | none => simp at hmap
  | some d =>
    simp only [Option.map_some'] at hmap
    obtain rfl : max (-d) 0 = v := by simpa using hmap
    have hd := diffs_mem_pos xs hchain d ho
    exact max_eq_right (by linarith)

theorem ewmAt_saturation (xs : List ℚ) (p t : ℕ) (hp : 1 ≤ p)
    (hchain : List.Pairwise (· < ·) xs) (hpt : p ≤ t) (ht : t < xs.length) :
    ewmAt p p ((losses xs).take (t + 1)) = some 0
    ∧ ∃ q, ewmAt p p ((gains xs).take (t + 1)) = some q ∧ 0 < q := by
  have hchain2 : List.Chain' (· < ·) xs := hchain.chain'
  have hw := ewmW_nonneg p hp
  have ht1 : 1 ≤ t := le_trans hp hpt
  have hmono : xs.getD (t - 1) 0 < xs.getD t 0 := by
    have hub : t - 1 < xs.length := by omega
    rw [List.getD_eq_getElem xs 0 ht, List.getD_eq_getElem xs 0 hub]
    exact List.pairwise_iff_getElem.mp hchain (t - 1) t hub ht (by omega)
  constructor
  · have hmax : max (-(xs.getD t 0 - xs.getD (t - 1) 0)) 0 = 0 :=
      max_eq_right (by linarith)
    have hsplit : (losses xs).take (t + 1) = (losses xs).take t ++ [some 0] := by
      rw [List.take_succ, losses_getElem xs t ht1 ht, hmax]
      rfl
    rcases hfold : ((losses xs).take t).foldl (ewmStep (ewmW p)) (0, 0, 0)
      with ⟨num1, den1, cnt1⟩
    have hftot : ((losses xs).take (t + 1)).foldl (ewmStep (ewmW p)) (0, 0, 0)
        = (num1 * ewmW p + 0, den1 * ewmW p + 1, cnt1 + 1) := by
      rw [hsplit, List.foldl_append, hfold]
      rfl
    have hnn := ewm_foldl_nonneg (ewmW p) hw ((losses xs).take t)
      (fun v hv => losses_defined_nonneg xs v (List.take_subset t _ hv)) (0, 0, 0)
      le_rfl le_rfl
    rw [hfold] at hnn
    have hnum : num1 = 0 := by
      have h0 := ewm_foldl_num_zero (ewmW p) ((losses xs).take t)
        (fun v hv => losses_defined_zero xs hchain2 v (List.take_subset t _ hv)) 0 0
      rw [hfold] at h0
      exact h0
    have hcnt : cnt1 + 1 = t := by
      have hc := ewm_foldl_cnt (ewmW p) ((losses xs).take (t + 1)) 0 0 0
      rw [hftot, losses_take_countP xs t ht] at hc
      simpa using hc
    have hden : (0:ℚ) < den1 * ewmW p + 1 := by nlinarith [hnn.2]
    rw [ewmAt_eq_of_foldl p p _ _ _ _ hftot, if_pos ⟨by omega, hden⟩, hnum]
    simp
  · have hgval : (gains xs)[t]? = some (some (xs.getD t 0 - xs.getD (t - 1) 0)) := by
      rw [gains_getElem xs t ht1 ht,
        max_eq_left (by linarith : (0:ℚ) ≤ xs.getD t 0 - xs.getD (t - 1) 0)]
    have hsplit : (gains xs).take (t + 1) =
        (gains xs).take t ++ [some (xs.getD t 0 - xs.getD (t - 1) 0)] := by
      rw [List.take_succ, hgval]
      rfl
    rcases hfold : ((gains xs).take t).foldl (ewmStep (ewmW p)) (0, 0, 0)
      with ⟨num1, den1, cnt1⟩
    have hftot : ((gains xs).take (t + 1)).foldl (ewmStep (ewmW p)) (0, 0, 0)
        = (num1 * ewmW p + (xs.getD t 0 - xs.getD (t - 1) 0),
            den1 * ewmW p + 1, cnt1 + 1) := by
      rw [hsplit, List.foldl_append, hfold]
      rfl
    have hnn := ewm_foldl_nonneg (ewmW p) hw ((gains xs).take t)
      (fun v hv => gains_defined_nonneg xs v (List.take_subset t _ hv)) (0, 0, 0)
      le_rfl le_rfl
    rw [hfold] at hnn
    have hcnt : cnt1 + 1 = t := by
      have hc := ewm_foldl_cnt (ewmW p) ((gains xs).take (t + 1)) 0 0 0
      rw [hftot, gains_take_countP xs t ht] at hc
      simpa using hc
    have hden : (0:ℚ) < den1 * ewmW p + 1 := by nlinarith [hnn.2]
    have hnum : (0:ℚ) < num1 * ewmW p + (xs.getD t 0 - xs.getD (t - 1) 0) := by
      nlinarith [hnn.1]
    rw [ewmAt_eq_of_foldl p p _ _ _ _ hftot, if_pos ⟨by omega, hden⟩]
    exact ⟨_, rfl, div_pos hnum hden⟩

theorem rsiCombine_none_left (o : Option ℚ) : rsiCombine none o = none := by
  cases o <;> rfl

theorem rsiCombine_none_right (o : Option ℚ) : rsiCombine o none = none := by
  cases o <;> rfl

theorem ewmAt_gains_warmup (xs : List ℚ) (p t : ℕ) (htp : t < p) :
    ewmAt p p ((gains xs).take (t + 1)) = none := by
  rcases hfold : ((gains xs).take (t + 1)).foldl (ewmStep (ewmW p)) (0, 0, 0)
    with ⟨num1, den1, cnt1⟩
  have hcnt : cnt1 ≤ t := by
    have hc := ewm_foldl_cnt (ewmW p) ((gains xs).take (t + 1)) 0 0 0
    rw [hfold] at hc
    have hc2 : cnt1 = ((gains xs).take (t + 1)).countP (fun o => o.isSome) := by
      simpa using hc
    have hle := gains_take_countP_le xs t
    omega
  rw [ewmAt_eq_of_foldl p p _ _ _ _ hfold, if_neg]
  rintro ⟨h1, -⟩
  omega

theorem ewmAt_nonneg (span minp : ℕ) (hw : 0 ≤ ewmW span) (window : List (Option ℚ))
    (hvals : ∀ v, some v ∈ window → 0 ≤ v) (q : ℚ)
    (h : ewmAt span minp window = some q) : 0 ≤ q := by
  rcases hfold : window.foldl (ewmStep (ewmW span)) (0, 0, 0) with ⟨num1, den1, cnt1⟩
  rw [ewmAt_eq_of_foldl span minp _ _ _ _ hfold] at h
  by_cases hcond : minp ≤ cnt1 ∧ 0 < den1
  · rw [if_pos hcond] at h
    obtain rfl : num1 / den1 = q := by simpa using h
    have hnn := ewm_foldl_nonneg (ewmW span) hw window hvals (0, 0, 0) le_rfl le_rfl
    rw [hfold] at hnn
    exact div_nonneg hnn.1 hnn.2
  · rw [if_neg hcond] at h
    simp at h

/-- Claim C5: for the RSI with period p (p >= 1): the result is undefined on
the warm-up of the first p positions and wherever either smoothed average is
undefined; at every position where both smoothed averages are defined and not
both zero the result lies in [0, 100]; when the smoothed average loss is
exactly zero and the smoothed average gain is positive the result is exactly
100 (saturating, not an error) — in particular a strictly increasing input
series gives exactly 100 at every position at or beyond p. -/
theorem claim_c5 (xs : List ℚ) (p : ℕ) (hp : 1 ≤ p) :
    (∀ t, t < p → t < xs.length → (_rsi xs p)[t]? = some none)
    ∧ (∀ t, t < xs.length →
        (ewmMean p p (gains xs))[t]? = some none
          ∨ (ewmMean p p (losses xs))[t]? = some none →
        (_rsi xs p)[t]? = some none)
    ∧ (∀ (t : ℕ) (g l : ℚ), (ewmMean p p (gains xs))[t]? = some (some g) →
        (ewmMean p p (losses xs))[t]? = some (some l) → ¬(g = 0 ∧ l = 0) →
        ∃ q, (_rsi xs p)[t]? = some (some q) ∧ 0 ≤ q ∧ q ≤ 100)
    ∧ (∀ (t : ℕ) (g : ℚ), (ewmMean p p (gains xs))[t]? = some (some g) → 0 < g →
        (ewmMean p p (losses xs))[t]? = some (some 0) →
        (_rsi xs p)[t]? = some (some 100))
    ∧ (xs.Pairwise (· < ·) → ∀ t, p ≤ t → t < xs.length →
        (_rsi xs p)[t]? = some (some 100)) := by
  have hlenG : (gains xs).length = xs.length := gains_length xs
  have hlenL : (losses xs).length = xs.length := losses_length xs
  have hbound : ∀ t, (ewmMean p p (gains xs))[t]? ≠ none → t < xs.length := by
    intro t h
    by_contra hcon
    rw [List.getElem?_eq_none] at h
    · exact h rfl
    · rw [ewmMean, List.length_map, List.length_range, hlenG]
      omega
  refine ⟨?_, ?_, ?_, ?_, ?_⟩
  · intro t htp ht
    rw [rsi_getElem xs p t ht, ewmAt_gains_warmup xs p t htp, rsiCombine_none_left]
  · intro t ht hor
    rw [rsi_getElem xs p t ht]
    rcases hor with hg | hl
    · rw [ewmMean_getElem p p (gains xs) t (hlenG ▸ ht)] at hg
      rw [Option.some_inj.mp hg, rsiCombine_none_left]
    · rw [ewmMean_getElem p p (losses xs) t (hlenL ▸ ht)] at hl
      rw [Option.some_inj.mp hl, rsiCombine_none_right]
  · intro t g l hg hl hgl
    have ht : t < xs.length := hbound t (by simp [hg])
    rw [ewmMean_getElem p p (gains xs) t (hlenG ▸ ht)] at hg
    rw [ewmMean_getElem p p (losses xs) t (hlenL ▸ ht)] at hl
    have hgv := Option.some_inj.mp hg
    have hlv := Option.some_inj.mp hl
    have hg0 : 0 ≤ g := ewmAt_nonneg p p (ewmW_nonneg p hp) _
      (fun v hv => gains_defined_nonneg xs v (List.take_subset _ _ hv)) g hgv
    have hl0 : 0 ≤ l := ewmAt_nonneg p p (ewmW_nonneg p hp) _
      (fun v hv => losses_defined_nonneg xs v (List.take_subset _ _ hv)) l hlv
    rw [rsi_getElem xs p t ht, hgv, hlv]
    by_cases hlz : l = 0
    · have hgz : g ≠ 0 := fun h => hgl ⟨h, hlz⟩
      refine ⟨100, ?_, by norm_num, by norm_num⟩
      rw [rsiCombine, if_pos hlz, if_neg hgz]
    · have hlpos : 0 < l := lt_of_le_of_ne hl0 (Ne.symm hlz)
      have hfr0 : 0 ≤ g / l := div_nonneg hg0 hlpos.le
      have h1 : (0:ℚ) < 1 + g / l := by linarith
      have hfp : 0 < 100 / (1 + g / l) := div_pos (by norm_num) h1
      have hfl : 100 / (1 + g / l) ≤ 100 := div_le_self (by norm_num) (by linarith)
      refine ⟨100 - 100 / (1 + g / l), ?_, by linarith, by linarith⟩
      rw [rsiCombine, if_neg hlz]
  · intro t g hg hgpos hl
    have ht : t < xs.length := hbound t (by simp [hg])
    rw [ewmMean_getElem p p (gains xs) t (hlenG ▸ ht)] at hg
    rw [ewmMean_getElem p p (losses xs) t (hlenL ▸ ht)] at hl
    rw [rsi_getElem xs p t ht, Option.some_inj.mp hg, Option.some_inj.mp hl,
      rsiCombine, if_pos rfl, if_neg hgpos.ne']
  · intro hchain t hpt ht
    obtain ⟨hlsat, q, hgsat, hqpos⟩ := ewmAt_saturation xs p t hp hchain hpt ht
    rw [rsi_getElem xs p t ht, hlsat, hgsat, rsiCombine, if_pos rfl, if_neg hqpos.ne']

theorem claim_c5_witness : (_rsi [1, 2, 3] 2)[2]? = some (some 100) :=
  (claim_c5 [1, 2, 3] 2 (by norm_num)).2.2.2.2
    (by norm_num [List.pairwise_cons]) 2 le_rfl (by norm_num)


/-! Decision-engine lemmas and claims. -/

theorem cmpLt_eq_true (x y : Option ℚ) :
    cmpLt x y = true ↔ ∃ a b, x = some a ∧ y = some b ∧ a < b := by
  cases x <;> cases y <;> simp [cmpLt]

theorem cmpLe_none_left (y : Option ℚ) : cmpLe none y = false := by cases y <;> rfl

theorem cmpLe_none_right (x : Option ℚ) : cmpLe x none = false := by cases x <;> rfl

theorem cmpLt_none_left (y : Option ℚ) : cmpLt none y = false := by cases y <;> rfl

theorem cmpLt_none_right (x : Option ℚ) : cmpLt x none = false := by cases x <;> rfl

theorem gtC_none (c : ℚ) : gtC none c = false := rfl

theorem crossover_asymm (a b c d : Option ℚ) (h : crossover a b c d = true) :
    crossover c d a b = false := by
  rcases hcc : crossover c d a b with _ | _
  · rfl
  exfalso
  rw [crossover, Bool.and_eq_true] at h hcc
  obtain ⟨dv, bv, hd, hb, hdb⟩ := (cmpLt_eq_true d b).mp h.2
  obtain ⟨bv2, dv2, hb2, hd2, hbd⟩ := (cmpLt_eq_true b d).mp hcc.2
  rw [hb] at hb2
  rw [hd] at hd2
  obtain rfl : bv = bv2 := by simpa using hb2
  obtain rfl : dv = dv2 := by simpa using hd2
  exact absurd (lt_trans hdb hbd) (lt_irrefl _)

/-- Claim C6: SmaCross.next emits exactly one enter-long with stop-loss
price = close * (1 - stop_loss_pct) when the fast SMA transitions from
at-or-below to strictly above the slow SMA on this bar and no position is open;
emits exit when the slow SMA so transitions over the fast SMA and a position is
open; and emits no action in every other combination of crossover state and
position state. -/
theorem claim_c6 (fastPrev fastCur slowPrev slowCur : Option ℚ) (price : ℚ)
    (posOpen : Bool) (stop_loss_pct : ℚ) :
    (crossover fastPrev fastCur slowPrev slowCur = true → posOpen = false →
      smaCrossNext fastPrev fastCur slowPrev slowCur price posOpen stop_loss_pct =
        .enterLong (price * (1 - stop_loss_pct)))
    ∧ (crossover slowPrev slowCur fastPrev fastCur = true → posOpen = true →
      smaCrossNext fastPrev fastCur slowPrev slowCur price posOpen stop_loss_pct = .exitPos)
    ∧ ((crossover fastPrev fastCur slowPrev slowCur = true ∧ posOpen = true)
        ∨ (crossover slowPrev slowCur fastPrev fastCur = true ∧ posOpen = false)
        ∨ (crossover fastPrev fastCur slowPrev slowCur = false
            ∧ crossover slowPrev slowCur fastPrev fastCur = false) →
      smaCrossNext fastPrev fastCur slowPrev slowCur price posOpen stop_loss_pct = .hold) := by
  refine ⟨?_, ?_, ?_⟩
  · intro hx hpos
    rw [smaCrossNext, if_pos hx, hpos]
    rfl
  · intro hx hpos
    rw [smaCrossNext, crossover_asymm _ _ _ _ hx]
    simp only [Bool.false_eq_true, if_false]
    rw [if_pos hx, hpos]
    rfl
  · rintro (⟨hx, hpos⟩ | ⟨hx, hpos⟩ | ⟨hn1, hn2⟩)
    · rw [smaCrossNext, if_pos hx, hpos]
      rfl
    · rw [smaCrossNext, crossover_asymm _ _ _ _ hx]
      simp only [Bool.false_eq_true, if_false]
      rw [if_pos hx, hpos]
      rfl
    · rw [smaCrossNext, hn1, hn2]
      rfl

theorem claim_c6_witness :
    smaCrossNext (some 1) (some 3) (some 2) (some 2) 10 false (1/50) =
      .enterLong (10 * (1 - 1/50)) :=
  (claim_c6 (some 1) (some 3) (some 2) (some 2) 10 false (1/50)).1 (by decide) rfl

/-- Claim C7 counterexample: with a position open, an undefined (NaN) daily RSI
— a consulted indicator — a defined slow SMA of 10 and a close of 5,
MtfRsiTrend.next emits an exit, so the claim that any undefined consulted
indicator forces a no-op is false on the code. -/
theorem claim_c7_counterexample :
    mtfNext (some 60) none (some 1) (some 10) 5 true 45 75 (1/25) = .exitPos
    ∧ Action.exitPos ≠ Action.hold := by
  constructor
  · decide
  · decide

/-- Claim C7 amended: an undefined value satisfies no numeric comparison;
hence SmaCross.next is a no-op whenever any of the four consulted SMA values is
undefined, MtfRsiTrend.next emits no entry when any consulted indicator is
undefined and is a no-op with an open position when both consulted exit
indicators are undefined; but with an open position an exit is emitted exactly
when a defined daily RSI exceeds the exit threshold or the price is below a
defined slow SMA, even if another consulted indicator is undefined. -/
theorem claim_c7_amended (rsiWeekly rsiDaily smaFast smaSlow fastPrev fastCur slowPrev
      slowCur : Option ℚ) (price : ℚ) (posOpen : Bool)
    (rsi_entry rsi_exit stop_loss_pct : ℚ) :
    (fastPrev = none ∨ fastCur = none ∨ slowPrev = none ∨ slowCur = none →
      smaCrossNext fastPrev fastCur slowPrev slowCur price posOpen stop_loss_pct = .hold)
    ∧ (posOpen = false →
      rsiWeekly = none ∨ rsiDaily = none ∨ smaFast = none ∨ smaSlow = none →
      mtfNext rsiWeekly rsiDaily smaFast smaSlow price posOpen rsi_entry rsi_exit
        stop_loss_pct = .hold)
    ∧ (posOpen = true → rsiDaily = none → smaSlow = none →
      mtfNext rsiWeekly rsiDaily smaFast smaSlow price posOpen rsi_entry rsi_exit
        stop_loss_pct = .hold)
    ∧ (posOpen = true →
      (mtfNext rsiWeekly rsiDaily smaFast smaSlow price posOpen rsi_entry rsi_exit
        stop_loss_pct = .exitPos ↔
        gtC rsiDaily rsi_exit = true ∨ cmpLt (some price) smaSlow = true)) := by
  refine ⟨?_, ?_, ?_, ?_⟩
  · intro hnone
    have h1 : crossover fastPrev fastCur slowPrev slowCur = false := by
      rw [crossover]
      rcases hnone with h | h | h | h <;> subst h <;>
        simp [cmpLe_none_left, cmpLe_none_right, cmpLt_none_left, cmpLt_none_right]
    have h2 : crossover slowPrev slowCur fastPrev fastCur = false := by
      rw [crossover]
      rcases hnone with h | h | h | h <;> subst h <;>
        simp [cmpLe_none_left, cmpLe_none_right, cmpLt_none_left, cmpLt_none_right]
    rw [smaCrossNext, h1, h2]
    rfl
  · intro hpos hnone
    subst hpos
    rw [mtfNext]
    simp only [Bool.not_false, if_true]
    rcases hnone with h | h | h | h <;> subst h <;>
      simp [gtC_none, cmpLt_none_left, cmpLt_none_right]
  · intro hpos hd hs
    subst hpos hd hs
    rfl
  · intro hpos
    subst hpos
    rw [mtfNext]
    simp only [Bool.not_true, Bool.false_eq_true, if_false]
    by_cases hcond : (gtC rsiDaily rsi_exit || cmpLt (some price) smaSlow) = true
    · rw [if_pos hcond]
      rw [Bool.or_eq_true] at hcond
      exact ⟨fun _ => hcond, fun _ => rfl⟩
    · rw [if_neg hcond]
      rw [Bool.or_eq_true] at hcond
      constructor
      · intro h
        exact absurd h (by decide)
      · intro h
        exact absurd h hcond

theorem claim_c7_amended_witness :
    smaCrossNext none (some 3) (some 2) (some 2) 10 false (1/50) = .hold :=
  (claim_c7_amended none none none none none (some 3) (some 2) (some 2) 10 false
    45 75 (1/50)).1 (Or.inl rfl)


/-! Aligner lemmas. -/

theorem bucketsGo_ne_nil (rule : ℕ → ℕ) (cur : ℕ × ℚ) (l : List (ℕ × ℚ)) :
    bucketsGo rule cur l ≠ [] := by
  induction l generalizing cur with
  | nil => simp [bucketsGo]
  | cons y ys ih =>
    rw [bucketsGo]
    by_cases h : rule y.1 = cur.1
    · rw [if_pos h]
      exact ih _
    · rw [if_neg h]
      simp

def bucketState (rule : ℕ → ℕ) (cur : ℕ × ℚ) (l : List (ℕ × ℚ)) : ℕ × ℚ :=
  l.foldl (fun st y => if rule y.1 = st.1 then (st.1, y.2) else (rule y.1, y.2)) cur

theorem bucketsGo_append (rule : ℕ → ℕ) (cur : ℕ × ℚ) (P S : List (ℕ × ℚ)) :
    bucketsGo rule cur (P ++ S) =
      (bucketsGo rule cur P).dropLast ++ bucketsGo rule (bucketState rule cur P) S := by
  induction P generalizing cur with
  | nil => simp [bucketsGo, bucketState]
  | cons y P ih =>
    rw [List.cons_append, bucketsGo, bucketsGo]
    by_cases h : rule y.1 = cur.1
    · have hstate : bucketState rule cur (y :: P) = bucketState rule (cur.1, y.2) P := by
        rw [bucketState, bucketState, List.foldl_cons]
        rw [if_pos h]
      rw [if_pos h, if_pos h, ih, hstate]
    · have hstate : bucketState rule cur (y :: P) = bucketState rule (rule y.1, y.2) P := by
        rw [bucketState, bucketState, List.foldl_cons]
        rw [if_neg h]
      rw [if_neg h, if_neg h, ih, hstate,
        List.dropLast_cons_of_ne_nil (bucketsGo_ne_nil rule _ P), List.cons_append]

theorem length_bucketsGo_append_ge (rule : ℕ → ℕ) (cur : ℕ × ℚ) (P S : List (ℕ × ℚ)) :
    (bucketsGo rule cur P).length ≤ (bucketsGo rule cur (P ++ S)).length := by
  rw [bucketsGo_append, List.length_append, List.length_dropLast]
  have h1 : bucketsGo rule cur P ≠ [] := bucketsGo_ne_nil rule cur P
  have h2 : bucketsGo rule (bucketState rule cur P) S ≠ [] := bucketsGo_ne_nil rule _ S
  have h3 : 1 ≤ (bucketsGo rule cur P).length := List.length_pos.mpr h1
  have h4 : 1 ≤ (bucketsGo rule (bucketState rule cur P) S).length := List.length_pos.mpr h2
  omega

theorem bucketsGo_take_agree (rule : ℕ → ℕ) (cur : ℕ × ℚ) (P S : List (ℕ × ℚ)) :
    (bucketsGo rule cur (P ++ S)).take ((bucketsGo rule cur P).length - 1) =
      (bucketsGo rule cur P).take ((bucketsGo rule cur P).length - 1) := by
  rw [bucketsGo_append, List.take_append_eq_append_take, List.length_dropLast,
    Nat.sub_self, List.take_zero, List.append_nil, List.dropLast_eq_take,
    List.take_take, min_self]

theorem runIdxGo_length (rule : ℕ → ℕ) (k cur : ℕ) (l : List (ℕ × ℚ)) :
    (runIdxGo rule k cur l).length = l.length := by
  induction l generalizing k cur with
  | nil => rfl
  | cons y ys ih =>
    rw [runIdxGo]
    by_cases h : rule y.1 = cur
    · rw [if_pos h]
      simp [ih]
    · rw [if_neg h]
      simp [ih]

theorem runIdx_length (rule : ℕ → ℕ) (l : List (ℕ × ℚ)) :
    (runIdx rule l).length = l.length := by
  cases l with
  | nil => rfl
  | cons x xs => simp [runIdx, runIdxGo_length]

theorem runIdxGo_append_take (rule : ℕ → ℕ) (k cur : ℕ) (P S : List (ℕ × ℚ)) (i : ℕ)
    (hi : i < P.length) :
    (runIdxGo rule k cur (P ++ S))[i]? = (runIdxGo rule k cur P)[i]? := by
  induction P generalizing k cur i with
  | nil => simp at hi
  | cons y P ih =>
    rw [List.cons_append, runIdxGo, runIdxGo]
    by_cases h : rule y.1 = cur
    · rw [if_pos h, if_pos h]
      cases i with
      | zero => simp
      | succ j =>
        rw [List.getElem?_cons_succ, List.getElem?_cons_succ]
        exact ih k cur j (by simpa using Nat.lt_of_succ_lt_succ hi)
    · rw [if_neg h, if_neg h]
      cases i with
      | zero => simp
      | succ j =>
        rw [List.getElem?_cons_succ, List.getElem?_cons_succ]
        exact ih (k + 1) (rule y.1) j (by simpa using Nat.lt_of_succ_lt_succ hi)

theorem runIdx_append_take (rule : ℕ → ℕ) (P S : List (ℕ × ℚ)) (i : ℕ)
    (hi : i < P.length) :
    (runIdx rule (P ++ S))[i]? = (runIdx rule P)[i]? := by
  cases P with
  | nil => simp at hi
  | cons x P =>
    rw [List.cons_append, runIdx, runIdx]
    cases i with
    | zero => simp
    | succ j =>
      rw [List.getElem?_cons_succ, List.getElem?_cons_succ]
      exact runIdxGo_append_take rule 0 (rule x.1) P S j
        (by simpa using Nat.lt_of_succ_lt_succ hi)

theorem runIdxGo_lt (rule : ℕ → ℕ) (k : ℕ) (cur : ℕ × ℚ) (l : List (ℕ × ℚ)) :
    ∀ g ∈ runIdxGo rule k cur.1 l, g < k + (bucketsGo rule cur l).length := by
  induction l generalizing k cur with
  | nil => simp [runIdxGo]
  | cons y ys ih =>
    intro g hg
    rw [runIdxGo] at hg
    rw [bucketsGo]
    by_cases h : rule y.1 = cur.1
    · rw [if_pos h] at hg
      rw [if_pos h]
      rcases List.mem_cons.mp hg with rfl | hg2
      · have := List.length_pos.mpr (bucketsGo_ne_nil rule (cur.1, y.2) ys)
        omega
      · exact ih k (cur.1, y.2) g hg2
    · rw [if_neg h] at hg
      rw [if_neg h]
      rcases List.mem_cons.mp hg with rfl | hg2
      · have := List.length_pos.mpr (bucketsGo_ne_nil rule (rule y.1, y.2) ys)
        simp only [List.length_cons]
        omega
      · have := ih (k + 1) (rule y.1, y.2) g hg2
        simp only [List.length_cons]
        omega

theorem runIdx_lt (rule : ℕ → ℕ) (l : List (ℕ × ℚ)) :
    ∀ g ∈ runIdx rule l, g < (buckets rule l).length := by
  cases l with
  | nil => simp [runIdx]
  | cons x xs =>
    intro g hg
    rw [runIdx] at hg
    rw [buckets]
    rcases List.mem_cons.mp hg with rfl | hg2
    · exact List.length_pos.mpr (bucketsGo_ne_nil rule (rule x.1, x.2) xs)
    · simpa using runIdxGo_lt rule 0 (rule x.1, x.2) xs g hg2

theorem diffs_getElem_zero (xs : List ℚ) (h : 0 < xs.length) :
    (diffs xs)[0]? = some none := by
  cases xs with
  | nil => simp at h
  | cons x rest => rw [diffs_cons, List.getElem?_cons_zero]

theorem diffs_take_eq (A B : List ℚ) (n : ℕ) (hAB : A.take n = B.take n) :
    (diffs A).take n = (diffs B).take n := by
  have hlen : min n A.length = min n B.length := by
    have h := congrArg List.length hAB
    simpa [List.length_take] using h
  apply List.ext_getElem?
  intro i
  rw [List.getElem?_take, List.getElem?_take]
  by_cases hi : i < n
  · rw [if_pos hi, if_pos hi]
    by_cases hiA : i < A.length
    · have hiB : i < B.length := by omega
      cases Nat.eq_zero_or_pos i with
      | inl h0 =>
        subst h0
        rw [diffs_getElem_zero A hiA, diffs_getElem_zero B hiB]
      | inr hpos =>
        rw [diffs_getElem A i hpos hiA, diffs_getElem B i hpos hiB]
        have hgi : A.getD i 0 = B.getD i 0 := by
          have hq := congrArg (fun l => l[i]?) hAB
          simp only [List.getElem?_take, if_pos hi] at hq
          rw [List.getD_eq_getElem?_getD, List.getD_eq_getElem?_getD, hq]
        have hgi1 : A.getD (i - 1) 0 = B.getD (i - 1) 0 := by
          have hq := congrArg (fun l => l[i - 1]?) hAB
          simp only [List.getElem?_take, if_pos (by omega : i - 1 < n)] at hq
          rw [List.getD_eq_getElem?_getD, List.getD_eq_getElem?_getD, hq]
        rw [hgi, hgi1]
    · have hiB : ¬ i < B.length := by omega
      rw [List.getElem?_eq_none (by rw [diffs_length]; omega),
        List.getElem?_eq_none (by rw [diffs_length]; omega)]
  · rw [if_neg hi, if_neg hi]

theorem rsi_causal (A B : List ℚ) (p n t : ℕ) (hAB : A.take n = B.take n)
    (htn : t + 1 ≤ n) (hA : t < A.length) (hB : t < B.length) :
    (_rsi A p)[t]? = (_rsi B p)[t]? := by
  rw [rsi_getElem A p t hA, rsi_getElem B p t hB]
  have hd : (diffs A).take (t + 1) = (diffs B).take (t + 1) := by
    have hdn := diffs_take_eq A B n hAB
    calc (diffs A).take (t + 1) = ((diffs A).take n).take (t + 1) := by
          rw [List.take_take, min_eq_left htn]
      _ = ((diffs B).take n).take (t + 1) := by rw [hdn]
      _ = (diffs B).take (t + 1) := by rw [List.take_take, min_eq_left htn]
  have hg : (gains A).take (t + 1) = (gains B).take (t + 1) := by
    rw [gains, gains, ← List.map_take, ← List.map_take, hd]
  have hl : (losses A).take (t + 1) = (losses B).take (t + 1) := by
    rw [losses, losses, ← List.map_take, ← List.map_take, hd]
  rw [hg, hl]

theorem buckets_take_agree (rule : ℕ → ℕ) (P S : List (ℕ × ℚ)) :
    (buckets rule (P ++ S)).take ((buckets rule P).length - 1) =
      (buckets rule P).take ((buckets rule P).length - 1) := by
  cases P with
  | nil => simp [buckets]
  | cons x P =>
    rw [List.cons_append, buckets, buckets]
    exact bucketsGo_take_agree rule (rule x.1, x.2) P S

theorem buckets_length_le (rule : ℕ → ℕ) (P S : List (ℕ × ℚ)) :
    (buckets rule P).length ≤ (buckets rule (P ++ S)).length := by
  cases P with
  | nil => simp [buckets]
  | cons x P =>
    rw [List.cons_append, buckets, buckets]
    exact length_bucketsGo_append_ge rule (rule x.1, x.2) P S

theorem alignedRsi_getElem (rule : ℕ → ℕ) (p : ℕ) (bars : List (ℕ × ℚ)) (i g : ℕ)
    (hg : (runIdx rule bars)[i]? = some g) :
    (alignedRsi rule p bars)[i]? = some (if g = 0 then none
      else ((_rsi ((buckets rule bars).map Prod.snd) p)[g - 1]?).join) := by
  simp only [alignedRsi, resampleApply]
  rw [List.getElem?_map, hg]
  rfl

theorem alignedRsi_take_agree (rule : ℕ → ℕ) (p : ℕ) (P S : List (ℕ × ℚ)) (i : ℕ)
    (hi : i < P.length) :
    (alignedRsi rule p (P ++ S))[i]? = (alignedRsi rule p P)[i]? := by
  have hlen : i < (runIdx rule P).length := by rw [runIdx_length]; exact hi
  obtain ⟨g, hg⟩ : ∃ g, (runIdx rule P)[i]? = some g :=
    ⟨_, List.getElem?_eq_getElem hlen⟩
  have hgPS : (runIdx rule (P ++ S))[i]? = some g := by
    rw [runIdx_append_take rule P S i hi, hg]
  rw [alignedRsi_getElem rule p (P ++ S) i g hgPS, alignedRsi_getElem rule p P i g hg]
  by_cases hg0 : g = 0
  · rw [if_pos hg0, if_pos hg0]
  · rw [if_neg hg0, if_neg hg0]
    have hgR : g < (buckets rule P).length := runIdx_lt rule P g (List.getElem?_mem hg)
    have htake : ((buckets rule (P ++ S)).map Prod.snd).take ((buckets rule P).length - 1)
        = ((buckets rule P).map Prod.snd).take ((buckets rule P).length - 1) := by
      rw [← List.map_take, ← List.map_take, buckets_take_agree]
    have hBle := buckets_length_le rule P S
    rw [rsi_causal ((buckets rule (P ++ S)).map Prod.snd) ((buckets rule P).map Prod.snd)
      p ((buckets rule P).length - 1) (g - 1) htake (by omega)
      (by rw [List.length_map]; omega) (by rw [List.length_map]; omega)]

/-- Claim C1: for the Multi-Timeframe Aligner (resample-and-apply of RSI onto
the base series), the indicator value attached to a base bar at or before time
T is determined solely by coarser buckets completed at or before it: two input
series agreeing on all bars with timestamp at most T (a common prefix, with all
later bars strictly after T) have equal aligned values on that prefix, the
aligned values of a series never change when later bars are appended, and every
base bar receives the indicator value of the bucket preceding its own in the
bucket sequence (undefined for bars of the first bucket) — never a value
derived from its own, possibly in-progress, bucket. -/
theorem claim_c1 (rule : ℕ → ℕ) (p T : ℕ) (P S1 S2 : List (ℕ × ℚ))
    (_hP : ∀ b ∈ P, b.1 ≤ T) (_hS1 : ∀ b ∈ S1, T < b.1) (_hS2 : ∀ b ∈ S2, T < b.1) :
    (∀ i, i < P.length →
      (alignedRsi rule p (P ++ S1))[i]? = (alignedRsi rule p (P ++ S2))[i]?)
    ∧ (∀ (bars ext : List (ℕ × ℚ)) (i : ℕ), i < bars.length →
      (alignedRsi rule p (bars ++ ext))[i]? = (alignedRsi rule p bars)[i]?)
    ∧ (∀ (bars : List (ℕ × ℚ)) (i g : ℕ), (runIdx rule bars)[i]? = some g →
      (alignedRsi rule p bars)[i]? = some (if g = 0 then none
        else ((_rsi ((buckets rule bars).map Prod.snd) p)[g - 1]?).join)) := by
  refine ⟨?_, ?_, ?_⟩
  · intro i hi
    rw [alignedRsi_take_agree rule p P S1 i hi, alignedRsi_take_agree rule p P S2 i hi]
  · intro bars ext i hi
    exact alignedRsi_take_agree rule p bars ext i hi
  · intro bars i g hg
    exact alignedRsi_getElem rule p bars i g hg

theorem claim_c1_witness :
    (alignedRsi id 1 [(0, 1), (1, 2)])[0]? = (alignedRsi id 1 [(0, 1)])[0]? :=
  (claim_c1 id 1 0 [(0, 1)] [(1, 2)] [] (by simp) (by simp) (by simp)).1 0
    (by simp)


end AutoBacktest
